import Mathlib

/-!
Shallow embedding of the retrieval core of the UNIFIED_AGENTIC_AI repository:
URL loading (`unified_src/services/web_loader.py`), keyword-overlap retrieval
(`unified_src/agents/research_agent.py`) and citation deduplication
(`unified_src/services/citation_engine.py`).

Strings are modelled through their character lists; the Python string
primitives used by the code (`lower`, `split()`, `strip`, substring `in`,
slicing `[:n]`) are embedded as executable functions on `List Char`.
-/

/-- Python `str.lower()`: per-character lowercasing. -/
def pyLower (s : String) : String :=
  ⟨s.data.map Char.toLower⟩

/-- Worker for Python `str.split()` with no argument: accumulates the current
word (reversed) and splits on runs of whitespace, dropping empty pieces. -/
def splitWsAux (cur : List Char) : List Char → List (List Char)
  | [] => if cur = [] then [] else [cur.reverse]
  | c :: cs =>
    if c.isWhitespace then
      if cur = [] then splitWsAux [] cs else cur.reverse :: splitWsAux [] cs
    else splitWsAux (c :: cur) cs

/-- Python `str.split()` with no argument. -/
def pySplitWs (s : String) : List String :=
  (splitWsAux [] s.data).map String.mk

/-- Does the second list start with the first? (helper for the Python
substring test). -/
def startsWithL : List Char → List Char → Bool
  | [], _ => true
  | _ :: _, [] => false
  | a :: as, b :: bs => a = b && startsWithL as bs

/-- Python substring test `needle in haystack` at character level. -/
def containsL (needle : List Char) : List Char → Bool
  | [] => decide (needle = [])
  | c :: cs => startsWithL needle (c :: cs) || containsL needle cs

/-- Python `str.strip()`: drop leading and trailing whitespace. -/
def pyStrip (s : String) : String :=
  ⟨((s.data.dropWhile Char.isWhitespace).reverse.dropWhile Char.isWhitespace).reverse⟩

/-- Python slice `s[:n]`: the first `n` characters. -/
def pyTake (s : String) (n : Nat) : String :=
  ⟨s.data.take n⟩

/-- Chunk metadata attached by `WebLoader.chunk_text` (`{url, title, domain}`). -/
structure ChunkMeta where
  url : String
  title : String
  domain : String
deriving DecidableEq

/-- A content chunk `{content, metadata, chunk_index}` as produced by
`WebLoader.chunk_text`. -/
structure Chunk where
  content : String
  metadata : ChunkMeta
  chunk_index : Nat
deriving DecidableEq

/-- `question_words = set(question.lower().split())` from
`ResearchQANode.retrieve_relevant_info`. The Python set is modelled as a
deduplicated list; its only use is a sum of membership tests, which does not
depend on iteration order. -/
def questionWords (question : String) : List String :=
  (pySplitWs (pyLower question)).dedup

/-- The relevance score of one chunk content against the question, lines 66-74
of `research_agent.py`: the number of distinct question words occurring in the
lowercased content, divided by the number of distinct question words, with the
`if question_words else 0` guard. -/
def chunkScore (question : String) (content : String) : ℚ :=
  let qw := questionWords question
  let nMatches := qw.countP (fun w => containsL w.data (pyLower content).data)
  if qw = [] then 0 else (nMatches : ℚ) / (qw.length : ℚ)

/-- One entry of `scored_chunks`: `{"chunk": chunk, "score": score}`. -/
structure ScoredChunk where
  chunk : Chunk
  score : ℚ
deriving DecidableEq

/-- The `scored_chunks` list built by `retrieve_relevant_info`. -/
def scoreChunks (question : String) (chunks : List Chunk) : List ScoredChunk :=
  chunks.map fun c => ⟨c, chunkScore question c.content⟩

/-- Comparison used by `sorted(scored_chunks, key=lambda x: x["score"],
reverse=True)`: `a` may come before `b` when its score is at least `b`'s. -/
def scoreGE (a b : ScoredChunk) : Prop :=
  b.score ≤ a.score

instance : DecidableRel scoreGE :=
  fun a b => inferInstanceAs (Decidable (b.score ≤ a.score))

instance : IsTotal ScoredChunk scoreGE :=
  ⟨fun a b => le_total b.score a.score⟩

instance : IsTrans ScoredChunk scoreGE :=
  ⟨fun _ _ _ hab hbc => le_trans hbc hab⟩

/-- `sorted(scored_chunks, key=lambda x: x["score"], reverse=True)`: CPython's
sort is stable and its `reverse=True` keeps ties in input order, which is
exactly insertion sort with the non-strict descending comparison. -/
def rankChunks (question : String) (chunks : List Chunk) : List ScoredChunk :=
  List.insertionSort scoreGE (scoreChunks question chunks)

/-- `top_chunks = sorted(...)[:5]`. -/
def topChunks (question : String) (chunks : List Chunk) : List ScoredChunk :=
  (rankChunks question chunks).take 5

/-- The state threaded through the research Q&A graph (`ResearchQAState`),
restricted to the fields the retrieval nodes read and write. A missing or
`None` chunks entry is modelled by the empty list (both are falsy in the
Python guards). -/
structure RQAState where
  question : String
  chunks : List Chunk
  retrieved_chunks : List Chunk
  error : Option String
deriving DecidableEq

/-- A citation record (`Citation` in `services/states.py`). -/
structure Citation where
  index : Nat
  title : String
  url : String
  excerpt : String
  accessed_date : Option String
deriving DecidableEq

/-- The mutable state of `CitationEngine`: the citations list, the
URL-to-index dict (modelled as an insertion-ordered association list with
unique keys) and the `processed_sources` set (modelled as a list without
duplicates). -/
structure CState where
  citations : List Citation
  citation_map : List (String × Nat)
  processed_sources : List String
deriving DecidableEq

/-- A fresh `CitationEngine()`. -/
def emptyEngine : CState :=
  ⟨[], [], []⟩

/-- Dict lookup `self.citation_map[url]` / `url in self.citation_map`. -/
def mapLookup (m : List (String × Nat)) (url : String) : Option Nat :=
  (m.find? (fun p => p.1 == url)).map (fun p => p.2)

/-- `CitationEngine.add_citation`. `datetime.now().strftime("%Y-%m-%d")` is
modelled by the extra `today` argument, used only when `accessed_date` is
`None`. Returns the citation index together with the updated engine state. -/
def add_citation (s : CState) (title url excerpt : String)
    (accessed_date : Option String) (today : String) : Nat × CState :=
  match mapLookup s.citation_map url with
  | some i => (i, s)
  | none =>
    let index := s.citations.length + 1
    let ad := accessed_date.getD today
    (index,
      { citations := s.citations ++ [⟨index, title, url, excerpt, some ad⟩],
        citation_map := s.citation_map ++ [(url, index)],
        processed_sources :=
          if url ∈ s.processed_sources then s.processed_sources
          else s.processed_sources ++ [url] })

/-- `CitationEngine.reset`. -/
def reset (_ : CState) : CState :=
  ⟨[], [], []⟩

/-- `CitationEngine.get_citation_context`. -/
def get_citation_context (s : CState) (citation_index : Nat) : Option Citation :=
  if h : citation_index < 1 ∨ citation_index > s.citations.length then none
  else some (s.citations.get ⟨citation_index - 1, by omega⟩)

/-- The citation loop over `top_chunks` at the end of
`retrieve_relevant_info`: each retrieved chunk contributes a citation with
the chunk metadata's title and url and the first 200 characters of its
content as excerpt. -/
def citeTop (eng : CState) (today : String) (top : List ScoredChunk) : CState :=
  top.foldl
    (fun e item =>
      (add_citation e item.chunk.metadata.title item.chunk.metadata.url
        (pyTake item.chunk.content 200) none today).2)
    eng

/-- `ResearchQANode.retrieve_relevant_info`: guard on missing question or
chunks, then score, sort descending, keep the top 5 and add citations. -/
def retrieve_relevant_info (s : RQAState) (eng : CState) (today : String) :
    RQAState × CState :=
  if s.question = "" ∨ s.chunks = [] then
    ({ s with error := some "Question or chunks missing" }, eng)
  else
    let top := topChunks s.question s.chunks
    ({ s with retrieved_chunks := top.map (fun x => x.chunk) }, citeTop eng today top)

/-- `ResearchQANode.chunk_content`: validates that chunks exist. -/
def chunk_content (s : RQAState) : RQAState :=
  if s.chunks = [] then { s with error := some "No content chunks available" } else s

/-- The dictionary returned by `WebLoader.parse_html`:
`{url, title, text, domain}`. -/
structure Parsed where
  url : String
  title : String
  text : String
  domain : String
deriving DecidableEq

/-- Worker for `enumerate(chunks)` in `WebLoader.chunk_text`: pair each piece
with its 0-based position. -/
def chunkTextAux (meta : ChunkMeta) : Nat → List String → List Chunk
  | _, [] => []
  | i, c :: cs => ⟨c, meta, i⟩ :: chunkTextAux meta (i + 1) cs

/-- `WebLoader.chunk_text`, parameterised by the text splitter
(`self.text_splitter.split_text`, an external langchain collaborator): every
piece becomes `{content, metadata, chunk_index}` with `chunk_index` its
position in this url's own piece list. -/
def chunk_text (split : String → List String) (text : String)
    (meta : ChunkMeta) : List Chunk :=
  chunkTextAux meta 0 (split text)

/-- The locals `loaded_content` / `all_chunks` of `WebLoader.load_urls`. -/
structure LoadAcc where
  loaded_content : List (String × Parsed)
  all_chunks : List Chunk
deriving DecidableEq

/-- Python dict assignment `loaded_content[url] = parsed`: overwrite in place
if the key exists, else append. -/
def dictInsert (m : List (String × Parsed)) (k : String) (v : Parsed) :
    List (String × Parsed) :=
  if m.any (fun p => p.1 == k) then
    m.map (fun p => if p.1 == k then (k, v) else p)
  else m ++ [(k, v)]

/-- Dict lookup in the result's `loaded_content`. -/
def contentLookup (m : List (String × Parsed)) (k : String) : Option Parsed :=
  (m.find? (fun p => p.1 == k)).map (fun p => p.2)

/-- The body of the `for url in urls` loop of `WebLoader.load_urls`.
`fetch` embeds `self.fetch_url` (`None` on failure) and `parse` embeds
`self.parse_html`; both are deterministic oracles. An empty or
whitespace-only url, a failed or empty fetch, and an empty parsed text all
`continue` without touching the accumulator. -/
def loadStep (fetch : String → Option String) (parse : String → String → Parsed)
    (split : String → List String) (acc : LoadAcc) (url0 : String) : LoadAcc :=
  let url := pyStrip url0
  if url = "" then acc
  else
    match fetch url with
    | none => acc
    | some html =>
      if html = "" then acc
      else
        let parsed := parse html url
        if parsed.text = "" then acc
        else
          ⟨dictInsert acc.loaded_content url parsed,
            acc.all_chunks ++
              chunk_text split parsed.text ⟨url, parsed.title, parsed.domain⟩⟩

/-- The dictionary returned by `WebLoader.load_urls`. -/
structure LoadResult where
  loaded_content : List (String × Parsed)
  chunks : List Chunk
  total_chunks : Nat
  urls_processed : Nat
deriving DecidableEq

/-- `WebLoader.load_urls`. -/
def load_urls (fetch : String → Option String) (parse : String → String → Parsed)
    (split : String → List String) (urls : List String) : LoadResult :=
  let acc := urls.foldl (loadStep fetch parse split) ⟨[], []⟩
  ⟨acc.loaded_content, acc.all_chunks, acc.all_chunks.length,
    acc.loaded_content.length⟩

/-- The sub-sequence of stripped urls that pass every guard of the loop,
paired with their parse result, in processing order (duplicates kept, as the
chunk list extends on every successful pass). -/
def successes (fetch : String → Option String) (parse : String → String → Parsed)
    (urls : List String) : List (String × Parsed) :=
  urls.filterMap fun u =>
    let t := pyStrip u
    if t = "" then none
    else
      match fetch t with
      | none => none
      | some html =>
        if html = "" then none
        else
          let p := parse html t
          if p.text = "" then none else some (t, p)

/-- The per-url chunk lists produced by the successful loop passes. -/
def urlBlocks (fetch : String → Option String) (parse : String → String → Parsed)
    (split : String → List String) (urls : List String) : List (List Chunk) :=
  (successes fetch parse urls).map fun tp =>
    chunk_text split tp.2.text ⟨tp.1, tp.2.title, tp.2.domain⟩

/-- Modelled from the spec: the chunker itself is
`langchain_text_splitters.RecursiveCharacterTextSplitter.split_text`, an
external dependency whose code is not part of this repository. The spec
describes it as splitting "text into overlapping fixed-size windows", so the
window start offsets advance by `chunk_size - chunk_overlap` until a window
reaches the end of the text. -/
def windowStarts (W step L s : Nat) : List Nat :=
  if _h : s + W < L ∧ 0 < step then s :: windowStarts W step L (s + step)
  else [s]
termination_by L - s
decreasing_by omega

/-- Modelled from the spec: chunking a character list into overlapping
fixed-size windows of size `W` with overlap `O` (the `WebLoader` defaults are
`W = 1000`, `O = 200`). -/
def splitWindows (W O : Nat) (text : List Char) : List (List Char) :=
  (windowStarts W (W - O) text.length 0).map fun s => (text.drop s).take W

/-! ## Counting lemmas for the windowed chunker -/

theorem windowStarts_length (W step L : Nat) (hstep : 0 < step) (s : Nat) :
    (windowStarts W step L s).length =
      if s + W < L then (L - W - s + step - 1) / step + 1 else 1 := by
  rw [windowStarts]
  by_cases h : s + W < L
  · rw [dif_pos ⟨h, hstep⟩, if_pos h]
    rw [List.length_cons, windowStarts_length W step L hstep (s + step)]
    by_cases h2 : s + step + W < L
    · rw [if_pos h2]
      have e1 : L - W - (s + step) + step - 1 = L - W - s - 1 := by omega
      have e2 : L - W - s + step - 1 = (L - W - s - 1) + step := by omega
      rw [e1, e2, Nat.add_div_right _ hstep]
    · rw [if_neg h2]
      have e : (L - W - s + step - 1) / step = 1 := by
        apply Nat.div_eq_of_lt_le <;> omega
      rw [e]
  · rw [dif_neg (by omega), if_neg h]
    rfl
termination_by L - s
decreasing_by omega

/-- C1: chunking a text of length `L` into windows of size `W` with overlap
`O` yields exactly one chunk when `L ≤ W`, and exactly
`⌈(L - O) / (W - O)⌉` chunks (written with natural ceiling division) when
`L > W`. The splitter is the spec-modelled window chunker `splitWindows`,
since the concrete splitter is an external langchain collaborator. -/
theorem chunk_count_formula (W O : Nat) (text : List Char) (hOW : O < W) :
    (text.length ≤ W → (splitWindows W O text).length = 1) ∧
    (W < text.length →
      (splitWindows W O text).length =
        (text.length - O + (W - O) - 1) / (W - O)) := by
  have hstep : 0 < W - O := by omega
  constructor
  · intro hL
    unfold splitWindows
    rw [List.length_map, windowStarts_length W (W - O) text.length hstep 0,
      if_neg (by omega)]
  · intro hL
    unfold splitWindows
    rw [List.length_map, windowStarts_length W (W - O) text.length hstep 0,
      if_pos (by omega)]
    have e : text.length - O + (W - O) - 1 =
        (text.length - W - 0 + (W - O) - 1) + (W - O) := by omega
    rw [e, Nat.add_div_right _ hstep]

/-- Witness for C1 at a concrete input: a 13-character text with window 5 and
overlap 2 yields `⌈(13 - 2) / 3⌉ = 4` chunks. -/
theorem chunk_count_formula_witness :
    (splitWindows 5 2 "abcdefghijklm".data).length = 4 := by
  have h := (chunk_count_formula 5 2 "abcdefghijklm".data (by decide)).2 (by decide)
  rw [h]
  decide

/-! ## Stability of the descending sort used by retrieval -/

theorem filter_orderedInsert_of_score_eq (a : ScoredChunk) (q : ℚ)
    (ha : a.score = q) :
    ∀ l : List ScoredChunk,
      (List.orderedInsert scoreGE a l).filter (fun x => decide (x.score = q)) =
        a :: l.filter (fun x => decide (x.score = q))
  | [] => by simp [List.orderedInsert, ha]
  | b :: l => by
    rw [List.orderedInsert]
    by_cases h : scoreGE a b
    · rw [if_pos h]
      simp [List.filter_cons, ha]
    · rw [if_neg h]
      have hb : ¬(b.score = q) := by
        simp only [scoreGE, not_le] at h
        intro hq
        rw [hq, ← ha] at h
        exact lt_irrefl _ h
      rw [List.filter_cons_of_neg (by simp [hb]),
        filter_orderedInsert_of_score_eq a q ha l,
        List.filter_cons_of_neg (by simp [hb])]

theorem filter_orderedInsert_of_score_ne (a : ScoredChunk) (q : ℚ)
    (ha : ¬(a.score = q)) :
    ∀ l : List ScoredChunk,
      (List.orderedInsert scoreGE a l).filter (fun x => decide (x.score = q)) =
        l.filter (fun x => decide (x.score = q))
  | [] => by simp [List.orderedInsert, ha]
  | b :: l => by
    rw [List.orderedInsert]
    by_cases h : scoreGE a b
    · rw [if_pos h]
      simp [List.filter_cons, ha]
    · rw [if_neg h]
      simp only [List.filter_cons, filter_orderedInsert_of_score_ne a q ha l]

theorem insertionSort_filter_score (q : ℚ) :
    ∀ l : List ScoredChunk,
      (List.insertionSort scoreGE l).filter (fun x => decide (x.score = q)) =
        l.filter (fun x => decide (x.score = q))
  | [] => rfl
  | a :: l => by
    rw [List.insertionSort]
    by_cases ha : a.score = q
    · rw [filter_orderedInsert_of_score_eq a q ha,
        insertionSort_filter_score q l]
      simp [List.filter_cons, ha]
    · rw [filter_orderedInsert_of_score_ne a q ha,
        insertionSort_filter_score q l]
      simp [List.filter_cons, ha]

/-- C2: the ranking computed by `retrieve_relevant_info` (the expression
`sorted(scored_chunks, key=..., reverse=True)`, embedded as `rankChunks`) is
the stable descending sort of the scored input chunks: it is sorted under the
non-strict descending score order, it is a permutation of the input, and for
every score value the chunks carrying that score appear in their input order.
Determinism over identical question/chunk inputs is definitional, the
embedding being a pure function of those inputs. -/
theorem rank_is_stable_descending_sort (question : String) (chunks : List Chunk) :
    List.Sorted scoreGE (rankChunks question chunks) ∧
    (rankChunks question chunks).Perm (scoreChunks question chunks) ∧
    ∀ q : ℚ,
      (rankChunks question chunks).filter (fun x => decide (x.score = q)) =
        (scoreChunks question chunks).filter (fun x => decide (x.score = q)) :=
  ⟨List.sorted_insertionSort scoreGE _, List.perm_insertionSort scoreGE _,
    fun q => insertionSort_filter_score q _⟩

/-- C10: every relevance score lies in `[0, 1]`, and a question with no
words scores `0` for every chunk through the `if question_words else 0`
guard instead of dividing by zero. -/
theorem chunkScore_bounds (question content : String) :
    0 ≤ chunkScore question content ∧ chunkScore question content ≤ 1 ∧
    (questionWords question = [] → chunkScore question content = 0) := by
  simp only [chunkScore]
  by_cases h : questionWords question = []
  · simp [h]
  · rw [if_neg h]
    have hlen : 0 < (questionWords question).length := List.length_pos.mpr h
    have hlenq : (0 : ℚ) < ((questionWords question).length : ℚ) := by
      exact_mod_cast hlen
    have hcount : (questionWords question).countP
        (fun w => containsL w.data (pyLower content).data) ≤
        (questionWords question).length := List.countP_le_length _
    refine ⟨by positivity, ?_, fun hq => absurd hq h⟩
    rw [div_le_one hlenq]
    exact_mod_cast hcount

/-- Witness for C10 at a concrete input (instantiating the universally
quantified statement and projecting its guard clause). -/
theorem chunkScore_bounds_witness :
    chunkScore " " "anything" = 0 :=
  (chunkScore_bounds " " "anything").2.2 (by decide)

/-- Stated from the spec's words, for comparison with the code: a chunk's
score is the fraction of the question's distinct lowercased
whitespace-separated words that occur in the lowercased chunk content. -/
def specScore (question content : String) : ℚ :=
  let words := (pySplitWs (pyLower question)).dedup
  (((words.filter (fun w => containsL w.data (pyLower content).data)).length : ℚ)) /
    ((words.length : ℚ))

theorem chunkScore_eq_specScore (question content : String) :
    chunkScore question content = specScore question content := by
  simp only [chunkScore, specScore, List.countP_eq_length_filter]
  by_cases h : questionWords question = []
  · rw [if_pos h]
    rw [show (pySplitWs (pyLower question)).dedup = questionWords question from rfl, h]
    simp
  · rw [if_neg h]
    rfl

theorem scoreChunks_score (question : String) (chunks : List Chunk) :
    ∀ x ∈ scoreChunks question chunks,
      x.score = chunkScore question x.chunk.content := by
  intro x hx
  obtain ⟨c, _, rfl⟩ := List.mem_map.mp hx
  rfl

/-- C5: on a non-empty question and non-empty chunk list,
`retrieve_relevant_info` scores chunks by the spec's overlap fraction
(`chunkScore = specScore`) and stores as `retrieved_chunks` exactly the
`min 5 n` highest-scoring of the `n` input chunks: the stored list together
with some rest list is a permutation of the input, and every stored chunk
scores at least every chunk of the rest. -/
theorem retrieve_stores_top5 (s : RQAState) (eng : CState) (today : String)
    (hq : s.question ≠ "") (hc : s.chunks ≠ []) :
    (∀ q c : String, chunkScore q c = specScore q c) ∧
    (retrieve_relevant_info s eng today).1.retrieved_chunks.length =
      min 5 s.chunks.length ∧
    ∃ rest : List Chunk,
      ((retrieve_relevant_info s eng today).1.retrieved_chunks ++ rest).Perm
        s.chunks ∧
      ∀ c ∈ (retrieve_relevant_info s eng today).1.retrieved_chunks,
        ∀ d ∈ rest,
          chunkScore s.question d.content ≤ chunkScore s.question c.content := by
  have hret : (retrieve_relevant_info s eng today).1.retrieved_chunks =
      ((rankChunks s.question s.chunks).take 5).map (fun x => x.chunk) := by
    simp [retrieve_relevant_info, topChunks, hq, hc]
  have hperm : (rankChunks s.question s.chunks).Perm
      (scoreChunks s.question s.chunks) :=
    List.perm_insertionSort scoreGE _
  have hsorted : List.Sorted scoreGE (rankChunks s.question s.chunks) :=
    List.sorted_insertionSort scoreGE _
  have hlenL : (rankChunks s.question s.chunks).length = s.chunks.length := by
    rw [hperm.length_eq]
    simp [scoreChunks]
  refine ⟨fun q c => chunkScore_eq_specScore q c, ?_, ?_⟩
  · rw [hret, List.length_map, List.length_take, hlenL]
  · refine ⟨((rankChunks s.question s.chunks).drop 5).map (fun x => x.chunk),
      ?_, ?_⟩
    · rw [hret, ← List.map_append, List.take_append_drop]
      have h1 : ((rankChunks s.question s.chunks).map (fun x => x.chunk)).Perm
          ((scoreChunks s.question s.chunks).map (fun x => x.chunk)) :=
        hperm.map _
      have h2 : (scoreChunks s.question s.chunks).map (fun x => x.chunk) =
          s.chunks := by
        rw [scoreChunks, List.map_map]
        exact List.map_id s.chunks
      rw [h2] at h1
      exact h1
    · intro c hcmem d hdmem
      rw [hret] at hcmem
      obtain ⟨x, hx, rfl⟩ := List.mem_map.mp hcmem
      obtain ⟨y, hy, rfl⟩ := List.mem_map.mp hdmem
      have hpw : List.Pairwise scoreGE
          ((rankChunks s.question s.chunks).take 5 ++
            (rankChunks s.question s.chunks).drop 5) := by
        rw [List.take_append_drop]
        exact hsorted
      have hxy : scoreGE x y := (List.pairwise_append.mp hpw).2.2 x hx y hy
      have hxs : x.score = chunkScore s.question x.chunk.content :=
        scoreChunks_score s.question s.chunks x
          (hperm.subset (List.take_subset 5 _ hx))
      have hys : y.score = chunkScore s.question y.chunk.content :=
        scoreChunks_score s.question s.chunks y
          (hperm.subset (List.drop_subset 5 _ hy))
      rw [← hxs, ← hys]
      exact hxy

/-- Witness for C5 at a concrete input: one chunk, so exactly
`min 5 1 = 1` chunk is stored. -/
theorem retrieve_stores_top5_witness :
    (retrieve_relevant_info
      ⟨"what", [⟨"what it is", ⟨"https://a.test", "A", "a.test"⟩, 0⟩], [], none⟩
      emptyEngine "2026-10-12").1.retrieved_chunks.length = min 5 1 :=
  (retrieve_stores_top5
    ⟨"what", [⟨"what it is", ⟨"https://a.test", "A", "a.test"⟩, 0⟩], [], none⟩
    emptyEngine "2026-10-12" (by decide) (by decide)).2.1

/-- C7: for the question `"What is X?"` and the chunks `"X is a thing"` and
`"unrelated text"` (in that order), retrieval scores the first chunk strictly
higher and ranks it first. -/
theorem retrieval_example_ranking :
    chunkScore "What is X?" "X is a thing" > chunkScore "What is X?" "unrelated text" ∧
    (retrieve_relevant_info
      ⟨"What is X?",
        [⟨"X is a thing", ⟨"https://a.test", "A", "a.test"⟩, 0⟩,
         ⟨"unrelated text", ⟨"https://a.test", "A", "a.test"⟩, 1⟩], [], none⟩
      emptyEngine "2026-10-12").1.retrieved_chunks =
      [⟨"X is a thing", ⟨"https://a.test", "A", "a.test"⟩, 0⟩,
       ⟨"unrelated text", ⟨"https://a.test", "A", "a.test"⟩, 1⟩] := by
  have hqw : questionWords "What is X?" = ["what", "is", "x?"] := by decide
  have h1 : chunkScore "What is X?" "X is a thing" = 1 / 3 := by
    have h2 : List.countP (fun w => containsL w.data (pyLower "X is a thing").data)
        ["what", "is", "x?"] = 1 := by decide
    simp only [chunkScore, hqw, h2]
    rw [if_neg (by simp)]
    norm_num
  have h2 : chunkScore "What is X?" "unrelated text" = 0 := by
    have h3 : List.countP (fun w => containsL w.data (pyLower "unrelated text").data)
        ["what", "is", "x?"] = 0 := by decide
    simp only [chunkScore, hqw, h3]
    rw [if_neg (by simp)]
    norm_num
  refine ⟨by rw [h1, h2]; norm_num, ?_⟩
  unfold retrieve_relevant_info
  rw [if_neg (by decide)]
  show ((topChunks _ _).map (fun x => x.chunk)) = _
  rw [topChunks, rankChunks, scoreChunks]
  simp only [List.map_cons, List.map_nil]
  norm_num [h1, h2, List.insertionSort, List.orderedInsert, scoreGE]

/-- C3: adding a URL that is already in the citation map returns the
existing index and leaves the engine unchanged; in particular a first add of
a fresh URL followed by a second add with any other title/excerpt yields the
first call's index and state, so the single citation entry keeps the
first-seen title and excerpt. -/
theorem add_citation_dedup (s : CState) (url : String)
    (t₁ e₁ t₂ e₂ today₁ today₂ : String) (ad₂ : Option String) (i : Nat) :
    (mapLookup s.citation_map url = some i →
      add_citation s t₂ url e₂ ad₂ today₂ = (i, s)) ∧
    (mapLookup s.citation_map url = none →
      (add_citation (add_citation s t₁ url e₁ none today₁).2 t₂ url e₂ ad₂ today₂ =
          ((add_citation s t₁ url e₁ none today₁).1,
            (add_citation s t₁ url e₁ none today₁).2) ∧
        (add_citation s t₁ url e₁ none today₁).2.citations =
          s.citations ++ [⟨s.citations.length + 1, t₁, url, e₁, some today₁⟩] ∧
        (add_citation s t₁ url e₁ none today₁).1 = s.citations.length + 1)) := by
  constructor
  · intro h
    rw [add_citation, h]
  · intro h
    have hfind : s.citation_map.find? (fun p => p.1 == url) = none := by
      by_cases hf : s.citation_map.find? (fun p => p.1 == url) = none
      · exact hf
      · exfalso
        obtain ⟨p, hp⟩ := Option.ne_none_iff_exists'.mp hf
        rw [mapLookup, hp] at h
        simp at h
    have h1 : add_citation s t₁ url e₁ none today₁ =
        (s.citations.length + 1,
          { citations := s.citations ++
              [⟨s.citations.length + 1, t₁, url, e₁, some today₁⟩],
            citation_map := s.citation_map ++ [(url, s.citations.length + 1)],
            processed_sources :=
              if url ∈ s.processed_sources then s.processed_sources
              else s.processed_sources ++ [url] }) := by
      rw [add_citation, h]
      rfl
    have h2 : mapLookup (s.citation_map ++ [(url, s.citations.length + 1)]) url =
        some (s.citations.length + 1) := by
      rw [mapLookup, List.find?_append, hfind]
      simp [List.find?]
    rw [h1]
    refine ⟨?_, rfl, rfl⟩
    rw [add_citation]
    simp only [h2]

/-- Witness for C3 at a concrete input: a second add of `"https://a.test"`
on an engine already containing it returns index 1 and the unchanged state. -/
theorem add_citation_dedup_witness :
    add_citation
      ⟨[⟨1, "T", "https://a.test", "E", some "2026-10-12"⟩],
        [("https://a.test", 1)], ["https://a.test"]⟩
      "T2" "https://a.test" "E2" none "2026-10-13" =
      (1, ⟨[⟨1, "T", "https://a.test", "E", some "2026-10-12"⟩],
        [("https://a.test", 1)], ["https://a.test"]⟩) :=
  (add_citation_dedup
    ⟨[⟨1, "T", "https://a.test", "E", some "2026-10-12"⟩],
      [("https://a.test", 1)], ["https://a.test"]⟩
    "https://a.test" "T" "E" "T2" "E2" "d1" "2026-10-13" none 1).1 (by decide)

/-- C6: when no content chunks are available, `chunk_content` records the
plain error message in the state's error field (no exception is modelled;
the embedded function is total). -/
theorem chunk_content_sets_error (s : RQAState) (h : s.chunks = []) :
    (chunk_content s).error = some "No content chunks available" := by
  rw [chunk_content, if_pos h]

/-- Witness for C6 at a concrete input. -/
theorem chunk_content_sets_error_witness :
    (chunk_content ⟨"q", [], [], none⟩).error =
      some "No content chunks available" :=
  chunk_content_sets_error ⟨"q", [], [], none⟩ rfl

/-! ## Citation engine invariant -/

/-- The indexing invariant of `CitationEngine`: the citation at position `k`
carries index `k + 1` (indices are contiguous `1..N` in first-seen order),
and `citation_map` maps each cited URL to the index of exactly that URL's
citation entry (and every entry's URL is mapped back to its own index). -/
def EngineInv (s : CState) : Prop :=
  (∀ k c, s.citations.get? k = some c → c.index = k + 1) ∧
  (∀ url i, mapLookup s.citation_map url = some i →
    ∃ c, s.citations.get? (i - 1) = some c ∧ c.url = url ∧ c.index = i) ∧
  (∀ k c, s.citations.get? k = some c →
    mapLookup s.citation_map c.url = some (k + 1))

/-- Arguments of one `add_citation` call (with the modelled clock value). -/
structure AddArgs where
  title : String
  url : String
  excerpt : String
  accessed_date : Option String
  today : String

/-- A sequence of `add_citation` calls against an engine state. -/
def runAdds (s : CState) (ops : List AddArgs) : CState :=
  ops.foldl
    (fun e op => (add_citation e op.title op.url op.excerpt op.accessed_date op.today).2)
    s

theorem engineInv_empty : EngineInv ⟨[], [], []⟩ := by
  refine ⟨?_, ?_, ?_⟩ <;> intro a b h <;> simp [mapLookup] at h

theorem engineInv_add (s : CState) (t u e : String) (ad : Option String)
    (today : String) (h : EngineInv s) :
    EngineInv (add_citation s t u e ad today).2 := by
  obtain ⟨h1, h2, h3⟩ := h
  cases hm : mapLookup s.citation_map u with
  | some i =>
    rw [add_citation, hm]
    exact ⟨h1, h2, h3⟩
  | none =>
    have hfind : s.citation_map.find? (fun p => p.1 == u) = none := by
      cases hf : s.citation_map.find? (fun p => p.1 == u) with
      | none => rfl
      | some p => rw [mapLookup, hf] at hm; simp at hm
    rw [add_citation, hm]
    refine ⟨?_, ?_, ?_⟩
    · intro k c hk
      by_cases hlt : k < s.citations.length
      · rw [List.get?_append hlt] at hk
        exact h1 k c hk
      · rcases Nat.lt_or_ge k (s.citations.length + 1) with hk1 | hk1
        · have hke : k = s.citations.length := by omega
          subst hke
          rw [List.get?_concat_length] at hk
          cases hk
          rfl
        · rw [List.get?_len_le (by simp; omega)] at hk
          cases hk
    · intro url i hi
      rw [mapLookup, List.find?_append] at hi
      cases hf2 : s.citation_map.find? (fun p => p.1 == url) with
      | some p =>
        rw [hf2] at hi
        simp only [Option.or_some] at hi
        have hold : mapLookup s.citation_map url = some i := by
          rw [mapLookup, hf2]
          exact hi
        obtain ⟨c, hc, hcu, hci⟩ := h2 url i hold
        obtain ⟨hil, _⟩ := List.get?_eq_some.mp hc
        exact ⟨c, by rw [List.get?_append hil]; exact hc, hcu, hci⟩
      | none =>
        rw [hf2] at hi
        simp only [Option.none_or] at hi
        by_cases hu : u = url
        · subst hu
          simp [List.find?] at hi
          refine ⟨⟨s.citations.length + 1, t, u, e, some (ad.getD today)⟩, ?_, rfl, ?_⟩
          · rw [← hi]
            simpa using List.get?_concat_length s.citations _
          · rw [← hi]
        · have hbe : (u == url) = false := by simpa using hu
          simp [List.find?, hbe] at hi
    · intro k c hk
      by_cases hlt : k < s.citations.length
      · rw [List.get?_append hlt] at hk
        have hthis := h3 k c hk
        rw [mapLookup] at hthis
        obtain ⟨p, hp, hp2⟩ := Option.map_eq_some'.mp hthis
        rw [mapLookup, List.find?_append, hp]
        simp [hp2]
      · rcases Nat.lt_or_ge k (s.citations.length + 1) with hk1 | hk1
        · have hke : k = s.citations.length := by omega
          subst hke
          rw [List.get?_concat_length] at hk
          cases hk
          rw [mapLookup, List.find?_append, hfind]
          simp [List.find?]
        · rw [List.get?_len_le (by simp; omega)] at hk
          cases hk

theorem engineInv_runAdds (ops : List AddArgs) (s : CState) (h : EngineInv s) :
    EngineInv (runAdds s ops) := by
  induction ops generalizing s with
  | nil => exact h
  | cons op rest ih =>
    exact ih _ (engineInv_add s op.title op.url op.excerpt op.accessed_date op.today h)

/-- C8: the indexing invariant holds on a fresh engine, is preserved by
every `add_citation` call, is re-established by `reset`, and therefore holds
after any sequence of `add_citation` calls on a fresh (or reset) engine. -/
theorem citation_engine_invariant :
    EngineInv emptyEngine ∧
    (∀ (s : CState) (t u e : String) (ad : Option String) (today : String),
      EngineInv s → EngineInv (add_citation s t u e ad today).2) ∧
    (∀ s : CState, EngineInv (reset s)) ∧
    (∀ ops : List AddArgs, EngineInv (runAdds emptyEngine ops)) :=
  ⟨engineInv_empty, engineInv_add, fun _ => engineInv_empty,
    fun ops => engineInv_runAdds ops emptyEngine engineInv_empty⟩

/-- Witness for C8: the invariant after one concrete `add_citation` call on
a fresh engine, with the `EngineInv` hypothesis discharged by the theorem's
own base clause. -/
theorem citation_engine_invariant_witness :
    EngineInv (add_citation emptyEngine "T" "https://a.test" "E" none
      "2026-10-12").2 :=
  citation_engine_invariant.2.1 emptyEngine "T" "https://a.test" "E" none
    "2026-10-12" citation_engine_invariant.1


/-! ## Dictionary and loop lemmas for `load_urls` -/

theorem find?_mapInsert (k : String) (v : Parsed) :
    ∀ m : List (String × Parsed), m.any (fun p => p.1 == k) = true →
      (m.map (fun p => if p.1 == k then (k, v) else p)).find?
        (fun p => p.1 == k) = some (k, v)
  | [], h => by simp at h
  | p :: m, h => by
    by_cases hp : p.1 = k
    · rw [List.map_cons, if_pos (by simpa using hp),
        List.find?_cons_of_pos (p := fun q : String × Parsed => q.1 == k) _ (by simp)]
    · have hp' : ¬((p.1 == k) = true) := by simpa using hp
      have hm : m.any (fun p => p.1 == k) = true := by
        rcases List.any_eq_true.mp h with ⟨x, hx, hxk⟩
        rcases List.mem_cons.mp hx with hhead | htail
        · exact absurd (hhead ▸ hxk) hp'
        · exact List.any_eq_true.mpr ⟨x, htail, hxk⟩
      rw [List.map_cons, if_neg hp',
        List.find?_cons_of_neg (p := fun q : String × Parsed => q.1 == k) _ hp']
      exact find?_mapInsert k v m hm

theorem find?_mapInsert_ne (k t : String) (v : Parsed) (hne : k ≠ t) :
    ∀ m : List (String × Parsed),
      (m.map (fun p => if p.1 == k then (k, v) else p)).find?
        (fun p => p.1 == t) = m.find? (fun p => p.1 == t)
  | [] => rfl
  | p :: m => by
    by_cases hp : p.1 = k
    · rw [List.map_cons, if_pos (by simpa using hp),
        List.find?_cons_of_neg (p := fun q : String × Parsed => q.1 == t) _ (by simpa using hne),
        List.find?_cons_of_neg (p := fun q : String × Parsed => q.1 == t) _
          (by simpa [hp] using hne)]
      exact find?_mapInsert_ne k t v hne m
    · rw [List.map_cons, if_neg (by simpa using hp)]
      by_cases ht : p.1 = t
      · rw [List.find?_cons_of_pos (p := fun q : String × Parsed => q.1 == t) _ (by simpa using ht),
          List.find?_cons_of_pos (p := fun q : String × Parsed => q.1 == t) _ (by simpa using ht)]
      · rw [List.find?_cons_of_neg (p := fun q : String × Parsed => q.1 == t) _ (by simpa using ht),
          List.find?_cons_of_neg (p := fun q : String × Parsed => q.1 == t) _ (by simpa using ht)]
        exact find?_mapInsert_ne k t v hne m

theorem contentLookup_dictInsert_self (m : List (String × Parsed))
    (k : String) (v : Parsed) :
    contentLookup (dictInsert m k v) k = some v := by
  rw [dictInsert]
  by_cases h : m.any (fun p => p.1 == k) = true
  · rw [if_pos h, contentLookup, find?_mapInsert k v m h]
    rfl
  · rw [if_neg h, contentLookup, List.find?_append]
    have hnone : m.find? (fun p => p.1 == k) = none := by
      rw [List.find?_eq_none]
      intro x hx hxk
      exact h (List.any_eq_true.mpr ⟨x, hx, hxk⟩)
    rw [hnone]
    simp [List.find?]

theorem contentLookup_dictInsert_ne (m : List (String × Parsed))
    (k : String) (v : Parsed) (t : String) (hne : k ≠ t) :
    contentLookup (dictInsert m k v) t = contentLookup m t := by
  rw [dictInsert]
  by_cases h : m.any (fun p => p.1 == k) = true
  · rw [if_pos h, contentLookup, find?_mapInsert_ne k t v hne m]
    rfl
  · rw [if_neg h, contentLookup, List.find?_append]
    have h1 : ([(k, v)].find? (fun p => p.1 == t)) = none := by
      have hkt : (k == t) = false := by simpa using hne
      simp [List.find?, hkt]
    rw [h1, Option.or_none]
    rfl

theorem chunkTextAux_metadata (meta : ChunkMeta) :
    ∀ (l : List String) (i : Nat) (c : Chunk),
      c ∈ chunkTextAux meta i l → c.metadata = meta
  | [], _, _, h => by simp [chunkTextAux] at h
  | x :: l, i, c, h => by
    rw [chunkTextAux] at h
    rcases List.mem_cons.mp h with hc | hc
    · rw [hc]
    · exact chunkTextAux_metadata meta l (i + 1) c hc

theorem chunkTextAux_get? (meta : ChunkMeta) :
    ∀ (l : List String) (i k : Nat) (c : Chunk),
      (chunkTextAux meta i l).get? k = some c → c.chunk_index = i + k
  | [], _, _, _, h => by simp [chunkTextAux] at h
  | x :: l, i, k, c, h => by
    rw [chunkTextAux] at h
    cases k with
    | zero =>
      simp only [List.get?] at h
      cases h
      rfl
    | succ k =>
      simp only [List.get?] at h
      have := chunkTextAux_get? meta l (i + 1) k c h
      omega

/-- The guard conditions under which the `load_urls` loop skips a stripped
url: a failed fetch, an empty fetched body, or an empty parsed text. -/
def urlFails (fetch : String → Option String) (parse : String → String → Parsed)
    (t : String) : Prop :=
  fetch t = none ∨
    ∃ html, fetch t = some html ∧ (html = "" ∨ (parse html t).text = "")

theorem loadStep_eq (fetch : String → Option String)
    (parse : String → String → Parsed) (split : String → List String)
    (acc : LoadAcc) (url0 : String) :
    (loadStep fetch parse split acc url0 = acc ∧
      (pyStrip url0 = "" ∨ urlFails fetch parse (pyStrip url0))) ∨
    (∃ html, pyStrip url0 ≠ "" ∧ fetch (pyStrip url0) = some html ∧ html ≠ "" ∧
      (parse html (pyStrip url0)).text ≠ "" ∧
      loadStep fetch parse split acc url0 =
        ⟨dictInsert acc.loaded_content (pyStrip url0)
            (parse html (pyStrip url0)),
          acc.all_chunks ++
            chunk_text split (parse html (pyStrip url0)).text
              ⟨pyStrip url0, (parse html (pyStrip url0)).title,
                (parse html (pyStrip url0)).domain⟩⟩) := by
  by_cases h0 : pyStrip url0 = ""
  · exact Or.inl ⟨by simp [loadStep, h0], Or.inl h0⟩
  · cases hf : fetch (pyStrip url0) with
    | none =>
      refine Or.inl ⟨?_, Or.inr (Or.inl hf)⟩
      simp [loadStep, h0, hf]
    | some html =>
      by_cases hh : html = ""
      · refine Or.inl ⟨?_, Or.inr (Or.inr ⟨html, hf, Or.inl hh⟩)⟩
        simp [loadStep, h0, hf, hh]
      · by_cases ht : (parse html (pyStrip url0)).text = ""
        · refine Or.inl ⟨?_, Or.inr (Or.inr ⟨html, hf, Or.inr ht⟩)⟩
          simp [loadStep, h0, hf, hh, ht]
        · refine Or.inr ⟨html, h0, rfl, hh, ht, ?_⟩
          simp [loadStep, h0, hf, hh, ht]

theorem fold_absent (fetch : String → Option String)
    (parse : String → String → Parsed) (split : String → List String)
    (t : String) (tf : t = "" ∨ urlFails fetch parse t) :
    ∀ (urls : List String) (acc : LoadAcc),
      contentLookup acc.loaded_content t = none →
      (∀ c ∈ acc.all_chunks, c.metadata.url ≠ t) →
      contentLookup
          ((urls.foldl (loadStep fetch parse split) acc)).loaded_content t =
        none ∧
      ∀ c ∈ (urls.foldl (loadStep fetch parse split) acc).all_chunks,
        c.metadata.url ≠ t
  | [], _, h1, h2 => ⟨h1, h2⟩
  | u :: urls, acc, h1, h2 => by
    rw [List.foldl_cons]
    rcases loadStep_eq fetch parse split acc u with ⟨heq, _⟩ |
      ⟨html, hne, hf, hh, ht, heq⟩
    · rw [heq]
      exact fold_absent fetch parse split t tf urls acc h1 h2
    · have hut : pyStrip u ≠ t := by
        intro he
        rcases tf with h | h
        · exact hne (he.trans h)
        · rcases h with hfn | ⟨html', hf', hrest⟩
          · rw [he, hfn] at hf
            exact Option.noConfusion hf
          · rw [he] at hf
            rw [hf] at hf'
            cases hf'
            rcases hrest with h'' | h''
            · exact hh h''
            · rw [he] at ht
              exact ht h''
      rw [heq]
      refine fold_absent fetch parse split t tf urls _ ?_ ?_
      · exact (contentLookup_dictInsert_ne acc.loaded_content (pyStrip u) _ t
          hut).trans h1
      · intro c hc
        rcases List.mem_append.mp hc with hc | hc
        · exact h2 c hc
        · have hm := chunkTextAux_metadata _ _ _ c hc
          rw [hm]
          exact hut

theorem fold_keeps (fetch : String → Option String)
    (parse : String → String → Parsed) (split : String → List String)
    (t html : String) (hf : fetch t = some html) :
    ∀ (urls : List String) (acc : LoadAcc),
      contentLookup acc.loaded_content t = some (parse html t) →
      contentLookup
          ((urls.foldl (loadStep fetch parse split) acc)).loaded_content t =
        some (parse html t)
  | [], _, h1 => h1
  | u :: urls, acc, h1 => by
    rw [List.foldl_cons]
    rcases loadStep_eq fetch parse split acc u with ⟨heq, _⟩ |
      ⟨html', _, hf', _, _, heq⟩
    · rw [heq]
      exact fold_keeps fetch parse split t html hf urls acc h1
    · rw [heq]
      by_cases he : pyStrip u = t
      · rw [he, hf] at hf'
        cases hf'
        refine fold_keeps fetch parse split t html hf urls _ ?_
        rw [← he]
        exact contentLookup_dictInsert_self _ _ _
      · refine fold_keeps fetch parse split t html hf urls _ ?_
        exact (contentLookup_dictInsert_ne acc.loaded_content (pyStrip u) _ t
          he).trans h1

theorem fold_processes (fetch : String → Option String)
    (parse : String → String → Parsed) (split : String → List String)
    (t html : String) (h0 : t ≠ "") (hf : fetch t = some html)
    (hh : html ≠ "") (ht : (parse html t).text ≠ "") :
    ∀ (urls : List String) (acc : LoadAcc),
      (∃ u ∈ urls, pyStrip u = t) →
      contentLookup
          ((urls.foldl (loadStep fetch parse split) acc)).loaded_content t =
        some (parse html t)
  | [], _, hex => by
    rcases hex with ⟨u, hu, _⟩
    exact absurd hu (List.not_mem_nil u)
  | u :: urls, acc, hex => by
    rw [List.foldl_cons]
    by_cases he : pyStrip u = t
    · rcases loadStep_eq fetch parse split acc u with ⟨_, hskip⟩ |
        ⟨html', _, hf', hh', ht', heq⟩
      · exfalso
        rcases hskip with h | h
        · exact h0 (he ▸ h)
        · rw [he] at h
          rcases h with hfn | ⟨html'', hf'', hrest⟩
          · rw [hf] at hfn
            exact Option.noConfusion hfn
          · rw [hf] at hf''
            cases hf''
            rcases hrest with h'' | h''
            · exact hh h''
            · exact ht h''
      · rw [heq]
        rw [he, hf] at hf'
        cases hf'
        apply fold_keeps fetch parse split t html hf urls
        rw [← he]
        exact contentLookup_dictInsert_self _ _ _
    · rcases hex with ⟨u', hu', hu't⟩
      rcases List.mem_cons.mp hu' with rfl | hmem
      · exact absurd hu't he
      · exact fold_processes fetch parse split t html h0 hf hh ht urls
          (loadStep fetch parse split acc u) ⟨u', hmem, hu't⟩

theorem fold_chunks (fetch : String → Option String)
    (parse : String → String → Parsed) (split : String → List String) :
    ∀ (urls : List String) (acc : LoadAcc),
      (urls.foldl (loadStep fetch parse split) acc).all_chunks =
        acc.all_chunks ++ (urlBlocks fetch parse split urls).flatten
  | [], acc => by simp [urlBlocks, successes]
  | u :: urls, acc => by
    rw [List.foldl_cons]
    by_cases h0 : pyStrip u = ""
    · have hs : loadStep fetch parse split acc u = acc := by
        simp [loadStep, h0]
      have hb : urlBlocks fetch parse split (u :: urls) =
          urlBlocks fetch parse split urls := by
        simp [urlBlocks, successes, h0]
      rw [hs, hb]
      exact fold_chunks fetch parse split urls acc
    · cases hf : fetch (pyStrip u) with
      | none =>
        have hs : loadStep fetch parse split acc u = acc := by
          simp [loadStep, h0, hf]
        have hb : urlBlocks fetch parse split (u :: urls) =
            urlBlocks fetch parse split urls := by
          simp [urlBlocks, successes, h0, hf]
        rw [hs, hb]
        exact fold_chunks fetch parse split urls acc
      | some html =>
        by_cases hh : html = ""
        · have hs : loadStep fetch parse split acc u = acc := by
            simp [loadStep, h0, hf, hh]
          have hb : urlBlocks fetch parse split (u :: urls) =
              urlBlocks fetch parse split urls := by
            simp [urlBlocks, successes, h0, hf, hh]
          rw [hs, hb]
          exact fold_chunks fetch parse split urls acc
        · by_cases htx : (parse html (pyStrip u)).text = ""
          · have hs : loadStep fetch parse split acc u = acc := by
              simp [loadStep, h0, hf, hh, htx]
            have hb : urlBlocks fetch parse split (u :: urls) =
                urlBlocks fetch parse split urls := by
              simp [urlBlocks, successes, h0, hf, hh, htx]
            rw [hs, hb]
            exact fold_chunks fetch parse split urls acc
          · have hs : loadStep fetch parse split acc u =
                ⟨dictInsert acc.loaded_content (pyStrip u)
                    (parse html (pyStrip u)),
                  acc.all_chunks ++
                    chunk_text split (parse html (pyStrip u)).text
                      ⟨pyStrip u, (parse html (pyStrip u)).title,
                        (parse html (pyStrip u)).domain⟩⟩ := by
              simp [loadStep, h0, hf, hh, htx]
            have hb : urlBlocks fetch parse split (u :: urls) =
                chunk_text split (parse html (pyStrip u)).text
                    ⟨pyStrip u, (parse html (pyStrip u)).title,
                      (parse html (pyStrip u)).domain⟩ ::
                  urlBlocks fetch parse split urls := by
              simp [urlBlocks, successes, h0, hf, hh, htx]
            rw [hs, hb, fold_chunks fetch parse split urls _]
            simp [List.append_assoc]

theorem chunkIdx_count_ge_one :
    ∀ bs : List (List Chunk),
      (∀ b ∈ bs, b ≠ [] → 0 ∈ b.map (fun c => c.chunk_index)) →
      1 ≤ bs.countP (fun b => !b.isEmpty) →
      1 ≤ (bs.flatten.map (fun c => c.chunk_index)).count 0
  | [], _, h2 => by simp at h2
  | b :: bs, hmem, h2 => by
    rw [List.flatten_cons, List.map_append, List.count_append]
    by_cases hb : b = []
    · have hrec := chunkIdx_count_ge_one bs
        (fun b' hb' hne => hmem b' (List.mem_cons_of_mem _ hb') hne)
        (by simpa [List.countP_cons, hb] using h2)
      omega
    · have h1b : 0 < (b.map (fun c => c.chunk_index)).count 0 :=
        List.count_pos_iff.mpr (hmem b (List.mem_cons_self b bs) hb)
      omega

theorem chunkIdx_count_ge_two :
    ∀ bs : List (List Chunk),
      (∀ b ∈ bs, b ≠ [] → 0 ∈ b.map (fun c => c.chunk_index)) →
      2 ≤ bs.countP (fun b => !b.isEmpty) →
      2 ≤ (bs.flatten.map (fun c => c.chunk_index)).count 0
  | [], _, h2 => by simp at h2
  | b :: bs, hmem, h2 => by
    rw [List.flatten_cons, List.map_append, List.count_append]
    by_cases hb : b = []
    · have hrec := chunkIdx_count_ge_two bs
        (fun b' hb' hne => hmem b' (List.mem_cons_of_mem _ hb') hne)
        (by simpa [List.countP_cons, hb] using h2)
      omega
    · have h1b : 0 < (b.map (fun c => c.chunk_index)).count 0 :=
        List.count_pos_iff.mpr (hmem b (List.mem_cons_self b bs) hb)
      have hbs1 : 1 ≤ bs.countP (fun b => !b.isEmpty) := by
        have hcp : (b :: bs).countP (fun b => !b.isEmpty) =
            bs.countP (fun b => !b.isEmpty) + 1 := by
          simp [List.countP_cons, hb]
        omega
      have hrec := chunkIdx_count_ge_one bs
        (fun b' hb' hne => hmem b' (List.mem_cons_of_mem _ hb') hne) hbs1
      omega

theorem urlBlocks_zero_mem (fetch : String → Option String)
    (parse : String → String → Parsed) (split : String → List String)
    (urls : List String) :
    ∀ b ∈ urlBlocks fetch parse split urls, b ≠ [] →
      0 ∈ b.map (fun c => c.chunk_index) := by
  intro b hb hne
  obtain ⟨tp, _, rfl⟩ := List.mem_map.mp hb
  cases hsplit : split tp.2.text with
  | nil => exact absurd (by simp [chunk_text, hsplit, chunkTextAux]) hne
  | cons x xs =>
    rw [chunk_text, hsplit, chunkTextAux]
    simp

/-- C4: a URL in the list whose fetch fails (or fetches an empty body, or
parses to empty text) contributes no `loaded_content` entry and no chunk,
while every other URL of the list is still processed and keeps its parsed
entry; the embedded `load_urls` is a total function, so no exception escapes
for such failures. -/
theorem load_urls_skips_failures (fetch : String → Option String)
    (parse : String → String → Parsed) (split : String → List String)
    (urls : List String) :
    (∀ url ∈ urls, urlFails fetch parse (pyStrip url) →
      contentLookup (load_urls fetch parse split urls).loaded_content
          (pyStrip url) = none ∧
      ∀ c ∈ (load_urls fetch parse split urls).chunks,
        c.metadata.url ≠ pyStrip url) ∧
    (∀ url ∈ urls, ∀ html, pyStrip url ≠ "" →
      fetch (pyStrip url) = some html → html ≠ "" →
      (parse html (pyStrip url)).text ≠ "" →
      contentLookup (load_urls fetch parse split urls).loaded_content
          (pyStrip url) = some (parse html (pyStrip url))) := by
  constructor
  · intro url _ hfail
    exact fold_absent fetch parse split (pyStrip url) (Or.inr hfail) urls
      ⟨[], []⟩ rfl (fun c hc => absurd hc (List.not_mem_nil c))
  · intro url hu html h0 hf hh ht
    exact fold_processes fetch parse split (pyStrip url) html h0 hf hh ht urls
      ⟨[], []⟩ ⟨url, hu, rfl⟩

/-- C9: the combined chunk list of `load_urls` is the concatenation of the
per-url chunk blocks; within each block `chunk_index` is the 0-based position
(restarting at 0 for each url); hence as soon as two processed urls both
yield chunks, the `chunk_index` values of the combined list are not
pairwise distinct. -/
theorem chunk_index_per_url (fetch : String → Option String)
    (parse : String → String → Parsed) (split : String → List String)
    (urls : List String) :
    (load_urls fetch parse split urls).chunks =
      (urlBlocks fetch parse split urls).flatten ∧
    (∀ b ∈ urlBlocks fetch parse split urls, ∀ k c, b.get? k = some c →
      c.chunk_index = k) ∧
    (2 ≤ (urlBlocks fetch parse split urls).countP (fun b => !b.isEmpty) →
      ¬ ((load_urls fetch parse split urls).chunks.map
          (fun c => c.chunk_index)).Nodup) := by
  have hchunks : (load_urls fetch parse split urls).chunks =
      (urlBlocks fetch parse split urls).flatten := by
    simpa using fold_chunks fetch parse split urls ⟨[], []⟩
  refine ⟨hchunks, ?_, ?_⟩
  · intro b hb k c hk
    obtain ⟨tp, _, rfl⟩ := List.mem_map.mp hb
    rw [chunk_text] at hk
    have := chunkTextAux_get? _ _ 0 k c hk
    omega
  · intro h2 hnodup
    rw [hchunks] at hnodup
    have hcount := chunkIdx_count_ge_two (urlBlocks fetch parse split urls)
      (urlBlocks_zero_mem fetch parse split urls) h2
    have hle := List.nodup_iff_count_le_one.mp hnodup 0
    omega

/-- A concrete fetch oracle for witnesses: one good URL, all others fail. -/
def exFetch : String → Option String :=
  fun u => if u = "https://good.test" then some "<html>" else none

/-- A concrete fetch oracle for witnesses: everything fetches. -/
def exFetchAll : String → Option String :=
  fun _ => some "<html>"

/-- A concrete parse oracle for witnesses. -/
def exParse : String → String → Parsed :=
  fun _ u => ⟨u, "T", "hello world", "test"⟩

/-- A concrete splitter for witnesses: one chunk per text. -/
def exSplit : String → List String :=
  fun t => [t]

/-- Witness for C4 at a concrete input: the failing URL leaves no entry, the
good one is processed. -/
theorem load_urls_skips_failures_witness :
    contentLookup (load_urls exFetch exParse exSplit
      ["https://bad.test", "https://good.test"]).loaded_content
      "https://bad.test" = none ∧
    contentLookup (load_urls exFetch exParse exSplit
      ["https://bad.test", "https://good.test"]).loaded_content
      "https://good.test" = some (exParse "<html>" "https://good.test") := by
  have hstrip1 : pyStrip "https://bad.test" = "https://bad.test" := by decide
  have hstrip2 : pyStrip "https://good.test" = "https://good.test" := by decide
  constructor
  · have h := (load_urls_skips_failures exFetch exParse exSplit
      ["https://bad.test", "https://good.test"]).1 "https://bad.test"
      (by decide) (Or.inl (by rw [hstrip1]; decide))
    rw [hstrip1] at h
    exact h.1
  · have h := (load_urls_skips_failures exFetch exParse exSplit
      ["https://bad.test", "https://good.test"]).2 "https://good.test"
      (by decide) "<html>" (by rw [hstrip2]; decide) (by rw [hstrip2]; decide)
      (by decide) (by rw [hstrip2]; decide)
    rw [hstrip2] at h
    exact h

/-- Witness for C9 at a concrete input: two fetched URLs each yield a chunk
with `chunk_index = 0`, so the combined indices are not distinct. -/
theorem chunk_index_per_url_witness :
    ¬ ((load_urls exFetchAll exParse exSplit
      ["https://a.test", "https://b.test"]).chunks.map
        (fun c => c.chunk_index)).Nodup :=
  (chunk_index_per_url exFetchAll exParse exSplit
    ["https://a.test", "https://b.test"]).2.2 (by decide)
